import Mathlib

/-
Verification development for the multi-task controller (xtrans_controller.py)
and the attention mixing network (attn_x.py).

Modelling conventions:
 * Tensors are functions out of `Fin`; the batch and time axes are dropped
   because every operation under study acts independently on each
   (batch, time) slice (the code reshapes to bs*seq_len and maps).
 * Floating point numbers are modelled as rationals (exact arithmetic);
   the exponential used by softmax and elu is an abstract parameter
   `E : Q -> Q`, constrained in each theorem by exactly the properties of
   the real exponential that the statement needs (positivity,
   monotonicity, E 0 = 1).
 * Python exceptions are modelled with `Except String`.
-/

/- ===== Controller: action-distribution post-processing =====
   xtrans_controller.py, XTransMAC.forward, lines 76-99.
   One row of `agent_outs` (one agent in one batch element) is a vector of
   logits over `A` actions. -/

/-- Softmax along the action axis with abstract exponential `E`
    (torch.nn.functional.softmax, dim = -1). -/
def softmaxE {A : ℕ} (E : ℚ → ℚ) (x : Fin A → ℚ) : Fin A → ℚ :=
  fun i => E (x i) / ∑ j, E (x j)

/-- Line 82: when mask_before_softmax, logits of unavailable actions are set
    to -1e10. -/
def maskedLogits {A : ℕ} (mbs : Bool) (avail : Fin A → Bool) (l : Fin A → ℚ) :
    Fin A → ℚ :=
  fun i => if mbs ∧ avail i = false then -(10 ^ 10 : ℚ) else l i

/-- Line 90: reshaped_avail_actions.sum(dim=1) — the number of available
    actions in the row (the mask is 0/1 valued). -/
def availCount {A : ℕ} (avail : Fin A → Bool) : ℕ :=
  (Finset.univ.filter (fun i => avail i = true)).card

/-- Lines 79-97 of XTransMAC.forward for agent_output_type = pi_logits:
    mask unavailable logits (if mbs), softmax, and outside test mode blend
    with the epsilon floor (uniform over available actions when mbs, over
    all actions otherwise) and finally zero out unavailable entries. -/
def forwardDist {A : ℕ} (E : ℚ → ℚ) (mbs test_mode : Bool) (eps : ℚ)
    (avail : Fin A → Bool) (l : Fin A → ℚ) : Fin A → ℚ :=
  let p := softmaxE E (maskedLogits mbs avail l)
  if test_mode then p
  else
    let n : ℚ := if mbs then (availCount avail : ℚ) else (A : ℚ)
    fun i =>
      if mbs ∧ avail i = false then 0
      else (1 - eps) * p i + eps / n

/-- The softmax mass that the masked distribution still places on
    unavailable actions (strictly positive for a positive `E`). -/
def unavailMass {A : ℕ} (E : ℚ → ℚ) (avail : Fin A → Bool) (l : Fin A → ℚ) : ℚ :=
  ∑ i ∈ Finset.univ.filter (fun i => avail i = false),
    softmaxE E (maskedLogits true avail l) i

/-- A computable stand-in for the real exponential used in concrete
    counterexamples: strictly positive, monotone, value 1 at 0, and
    vanishingly small at -1e10. -/
def modelExp (x : ℚ) : ℚ := if x < 0 then 1 / (1 - x) else x + 1

lemma modelExp_pos (x : ℚ) : 0 < modelExp x := by
  unfold modelExp
  split
  · have h1 : (0:ℚ) < 1 - x := by linarith
    positivity
  · linarith [not_lt.mp (by assumption : ¬ x < 0)]

lemma softmaxE_nonneg {A : ℕ} (E : ℚ → ℚ) (hE : ∀ x, 0 < E x)
    (x : Fin A → ℚ) (i : Fin A) : 0 ≤ softmaxE E x i := by
  unfold softmaxE
  have hnum := (hE (x i)).le
  have hden : 0 ≤ ∑ j, E (x j) :=
    Finset.sum_nonneg fun j _ => (hE (x j)).le
  exact div_nonneg hnum hden

lemma softmaxE_sum_one {A : ℕ} (E : ℚ → ℚ) (hE : ∀ x, 0 < E x) (hA : 0 < A)
    (x : Fin A → ℚ) : ∑ i, softmaxE E x i = 1 := by
  unfold softmaxE
  have hden : (0:ℚ) < ∑ j, E (x j) := by
    have : Nonempty (Fin A) := Fin.pos_iff_nonempty.mp hA
    exact Finset.sum_pos (fun j _ => hE (x j)) Finset.univ_nonempty
  rw [← Finset.sum_div]
  exact div_self hden.ne'

lemma filter_not_avail {A : ℕ} (avail : Fin A → Bool) :
    Finset.univ.filter (fun i => ¬ avail i = true)
      = Finset.univ.filter (fun i : Fin A => avail i = false) := by
  simp [Bool.not_eq_true]

lemma sum_avail_softmax {A : ℕ} (E : ℚ → ℚ) (hE : ∀ x, 0 < E x) (hA : 0 < A)
    (avail : Fin A → Bool) (l : Fin A → ℚ) :
    ∑ i ∈ Finset.univ.filter (fun i => avail i = true),
        softmaxE E (maskedLogits true avail l) i
      = 1 - unavailMass E avail l := by
  have htot := softmaxE_sum_one E hE hA (maskedLogits true avail l)
  have hsplit := Finset.sum_filter_add_sum_filter_not Finset.univ
    (fun i => avail i = true) (softmaxE E (maskedLogits true avail l))
  rw [filter_not_avail] at hsplit
  unfold unavailMass
  rw [htot] at hsplit
  linarith

/-- C1, amended.  With masking enabled and at least one available action:
in training mode the returned distribution is exactly 0 on unavailable
actions and its mass over available actions is 1 - (1-eps) * U, where U is
the (strictly positive in exact arithmetic) residual softmax mass on the
-1e10-masked unavailable logits; in test mode the distribution sums to 1
over ALL actions, so its mass over available actions is 1 - U, not 1. -/
theorem claim1_amended_distribution_masses {A : ℕ} (E : ℚ → ℚ) (eps : ℚ)
    (avail : Fin A → Bool) (l : Fin A → ℚ)
    (hE : ∀ x, 0 < E x) (hA : 0 < A) (hav : 0 < availCount avail) :
    (∀ i, avail i = false → forwardDist E true false eps avail l i = 0) ∧
    (∑ i ∈ Finset.univ.filter (fun i => avail i = true),
        forwardDist E true false eps avail l i
      = 1 - (1 - eps) * unavailMass E avail l) ∧
    (∑ i, forwardDist E true true eps avail l i = 1) ∧
    (∑ i ∈ Finset.univ.filter (fun i => avail i = true),
        forwardDist E true true eps avail l i = 1 - unavailMass E avail l) ∧
    0 ≤ unavailMass E avail l := by
  have hsum := sum_avail_softmax E hE hA avail l
  have hcard : ((Finset.univ.filter (fun i => avail i = true)).card : ℚ)
      = (availCount avail : ℚ) := by rfl
  have havQ : (0:ℚ) < (availCount avail : ℚ) := by exact_mod_cast hav
  refine ⟨?_, ?_, ?_, ?_, ?_⟩
  · intro i hi
    simp [forwardDist, hi]
  · have hrw : ∀ i ∈ Finset.univ.filter (fun i => avail i = true),
        forwardDist E true false eps avail l i
          = (1 - eps) * softmaxE E (maskedLogits true avail l) i
            + eps / (availCount avail : ℚ) := by
      intro i hi
      rw [Finset.mem_filter] at hi
      simp [forwardDist, hi.2]
    rw [Finset.sum_congr rfl hrw, Finset.sum_add_distrib, ← Finset.mul_sum, hsum,
      Finset.sum_const, nsmul_eq_mul, hcard, ← mul_div_assoc,
      mul_div_cancel_left₀ _ havQ.ne']
    ring
  · have : ∀ i, forwardDist E true true eps avail l i
        = softmaxE E (maskedLogits true avail l) i := by
      intro i; simp [forwardDist]
    rw [Finset.sum_congr rfl (fun i _ => this i)]
    exact softmaxE_sum_one E hE hA _
  · have : ∀ i ∈ Finset.univ.filter (fun i => avail i = true),
        forwardDist E true true eps avail l i
          = softmaxE E (maskedLogits true avail l) i := by
      intro i _; simp [forwardDist]
    rw [Finset.sum_congr rfl this, hsum]
  · exact Finset.sum_nonneg fun i _ => softmaxE_nonneg E hE _ i

/-- Witness for the amended C1 at a concrete input (2 actions, the second
unavailable, eps = 1/10, exponential model modelExp). -/
theorem claim1_amended_witness :
    0 < availCount ![true, false] ∧
    ∑ i ∈ Finset.univ.filter (fun i => ![true, false] i = true),
        forwardDist modelExp true false (1/10) ![true, false] ![(0:ℚ), 0] i
      = 1 - (1 - 1/10) * unavailMass modelExp ![true, false] ![(0:ℚ), 0] :=
  ⟨by decide,
    (claim1_amended_distribution_masses modelExp (1/10) ![true, false] ![(0:ℚ), 0]
      modelExp_pos (by norm_num) (by decide)).2.1⟩

/-- Counterexample to C1 as stated: in test (evaluation) mode, exact
arithmetic gives the unavailable action (index 1, logits 0, mask [1,0]) the
strictly positive probability 1/(10^10 + 2) rather than exactly zero. -/
theorem claim1_counterexample_unavailable_positive :
    forwardDist modelExp true true 0 ![true, false] ![(0:ℚ), 0] 1
      = 1 / (10 ^ 10 + 2) ∧ (1 / (10 ^ 10 + 2) : ℚ) ≠ 0 := by
  constructor
  · norm_num [forwardDist, softmaxE, maskedLogits, modelExp, Fin.sum_univ_two]
  · norm_num

/-- C2: with masking enabled, outside evaluation mode, every available
action receives probability at least eps divided by the number of
available actions. -/
theorem claim2_epsilon_floor {A : ℕ} (E : ℚ → ℚ) (eps : ℚ)
    (avail : Fin A → Bool) (l : Fin A → ℚ) (i : Fin A)
    (hE : ∀ x, 0 < E x) (heps : eps ≤ 1) (hi : avail i = true) :
    eps / (availCount avail : ℚ) ≤ forwardDist E true false eps avail l i := by
  have hp := softmaxE_nonneg E hE (maskedLogits true avail l) i
  have hval : forwardDist E true false eps avail l i
      = (1 - eps) * softmaxE E (maskedLogits true avail l) i
        + eps / (availCount avail : ℚ) := by
    simp [forwardDist, hi]
  rw [hval]
  nlinarith [mul_nonneg (by linarith : (0:ℚ) ≤ 1 - eps) hp]

/-- Witness for C2 at a concrete input. -/
theorem claim2_epsilon_floor_witness :
    ![true, false] 0 = true ∧ (1/10 : ℚ) ≤ 1 ∧
    (1/10 : ℚ) / (availCount ![true, false] : ℚ)
      ≤ forwardDist modelExp true false (1/10) ![true, false] ![(0:ℚ), 0] 0 :=
  ⟨by decide, by norm_num,
    claim2_epsilon_floor modelExp (1/10) ![true, false] ![(0:ℚ), 0] 0
      modelExp_pos (by norm_num) (by decide)⟩

/- ===== Task representation store =====
   xtrans_controller.py, XTransMAC.init_task_repres (lines 176-197) and
   XTransMAC.get_task_repres (lines 199-201).
   orthogo_tensor runs sympy GramSchmidt on the rows of a random matrix
   (raising when the rows are linearly dependent) and then row-normalizes
   with F.normalize (denominator max(norm, 1e-12)). -/

/-- Euclidean inner product of two rational vectors. -/
def dotQ {n : ℕ} (u v : Fin n → ℚ) : ℚ := ∑ k, u k * v k

/-- One Gram-Schmidt step: subtract from xi its projections on the already
    produced rows. -/
def gsStep {n : ℕ} (xi : Fin n → ℚ) (prev : List (Fin n → ℚ)) : Fin n → ℚ :=
  fun k => xi k - (prev.map (fun u => dotQ xi u / dotQ u u * u k)).sum

/-- The list of the first i Gram-Schmidt rows of the matrix x. -/
def gsRows {n : ℕ} (x : ℕ → Fin n → ℚ) : ℕ → List (Fin n → ℚ)
  | 0 => []
  | i + 1 => gsRows x i ++ [gsStep (x i) (gsRows x i)]

/-- Row i of the Gram-Schmidt orthogonalization of the matrix x. -/
def gsRow {n : ℕ} (x : ℕ → Fin n → ℚ) (i : ℕ) : Fin n → ℚ :=
  gsStep (x i) (gsRows x i)

/-- Squared euclidean norm. -/
def normSq {n : ℕ} (u : Fin n → ℚ) : ℚ := dotQ u u

/-- F.normalize(_, dim=1) on one row: divide by max(norm, 1e-12)
    (real-valued because the euclidean norm is a square root). -/
noncomputable def normRow {n : ℕ} (u : Fin n → ℚ) : Fin n → ℝ :=
  fun k => (u k : ℝ) / max (Real.sqrt ((normSq u : ℚ) : ℝ)) (1 / 10 ^ 12)

/-- Extend a finite matrix of rows to all of Nat (rows past m are junk). -/
def xExt {m n : ℕ} (X : Fin m → Fin n → ℚ) : ℕ → Fin n → ℚ :=
  fun i => if h : i < m then X ⟨i, h⟩ else fun _ => 0

/-- init_task_repres on the (random) input matrix X: Gram-Schmidt the rows
    (sympy GramSchmidt raises on linearly dependent rows, i.e. when some
    orthogonalized row is zero), then row-normalize. -/
noncomputable def init_task_repres {m n : ℕ} (X : Fin m → Fin n → ℚ) :
    Except String (Fin m → Fin n → ℝ) :=
  if ∀ i : Fin m, normSq (gsRow (xExt X) i) ≠ 0 then
    Except.ok (fun i => normRow (gsRow (xExt X) i))
  else Except.error "GramSchmidt failed: vector set not linearly independent"

lemma dotQ_comm {n : ℕ} (u v : Fin n → ℚ) : dotQ u v = dotQ v u :=
  Finset.sum_congr rfl fun _ _ => mul_comm _ _

lemma dotQ_self_eq_zero {n : ℕ} {u : Fin n → ℚ} (h : dotQ u u = 0) :
    ∀ k, u k = 0 := by
  intro k
  have h2 : ∀ j ∈ Finset.univ, 0 ≤ u j * u j := fun j _ => mul_self_nonneg _
  have h3 := (Finset.sum_eq_zero_iff_of_nonneg h2).mp h k (Finset.mem_univ k)
  exact mul_self_eq_zero.mp h3

lemma gsRows_eq_map {n : ℕ} (x : ℕ → Fin n → ℚ) (i : ℕ) :
    gsRows x i = (List.range i).map (gsRow x) := by
  induction i with
  | zero => rfl
  | succ i ih =>
    rw [gsRows, List.range_succ, List.map_append, ih]
    congr 1
    simp [gsRow, ih]

lemma list_range_map_sum (g : ℕ → ℚ) (i : ℕ) :
    ((List.range i).map g).sum = ∑ j ∈ Finset.range i, g j := by
  induction i with
  | zero => simp
  | succ i ih =>
    rw [List.range_succ, List.map_append, List.sum_append,
      Finset.sum_range_succ, ih]
    simp

lemma dotQ_gsRow {n : ℕ} (v : Fin n → ℚ) (x : ℕ → Fin n → ℚ) (i : ℕ) :
    dotQ v (gsRow x i) = dotQ v (x i)
      - ∑ j ∈ Finset.range i,
          dotQ (x i) (gsRow x j) / dotQ (gsRow x j) (gsRow x j)
            * dotQ v (gsRow x j) := by
  have hstep : gsRow x i
      = fun k => x i k - ∑ j ∈ Finset.range i,
          dotQ (x i) (gsRow x j) / dotQ (gsRow x j) (gsRow x j) * gsRow x j k := by
    funext k
    rw [gsRow, gsStep, gsRows_eq_map, List.map_map]
    rw [show ((fun u => dotQ (x i) u / dotQ u u * u k) ∘ gsRow x)
        = fun j => dotQ (x i) (gsRow x j) / dotQ (gsRow x j) (gsRow x j)
            * gsRow x j k from rfl]
    rw [list_range_map_sum]
  rw [hstep]
  unfold dotQ
  simp only [mul_sub]
  rw [Finset.sum_sub_distrib]
  congr 1
  simp only [Finset.mul_sum]
  rw [Finset.sum_comm]
  exact Finset.sum_congr rfl fun j _ => Finset.sum_congr rfl fun k _ => by ring

/-- Gram-Schmidt rows are pairwise orthogonal (with the convention that a
    projection on a zero row, division by zero, contributes zero). -/
theorem gsRow_orth {n : ℕ} (x : ℕ → Fin n → ℚ) :
    ∀ i j, j < i → dotQ (gsRow x i) (gsRow x j) = 0 := by
  intro i
  induction i using Nat.strong_induction_on with
  | _ i ih =>
    intro j hj
    rw [dotQ_comm, dotQ_gsRow]
    have hzero : ∀ k ∈ Finset.range i, k ≠ j →
        dotQ (x i) (gsRow x k) / dotQ (gsRow x k) (gsRow x k)
          * dotQ (gsRow x j) (gsRow x k) = 0 := by
      intro k hk hkj
      rw [Finset.mem_range] at hk
      rcases lt_or_gt_of_ne hkj with hlt | hgt
      · rw [ih j hj k hlt, mul_zero]
      · rw [dotQ_comm (gsRow x j) (gsRow x k), ih k hk j hgt, mul_zero]
    rw [Finset.sum_eq_single_of_mem j (Finset.mem_range.mpr hj) hzero]
    by_cases hself : dotQ (gsRow x j) (gsRow x j) = 0
    · have hz := dotQ_self_eq_zero hself
      have h1 : dotQ (gsRow x j) (x i) = 0 := by
        unfold dotQ
        exact Finset.sum_eq_zero fun k _ => by rw [hz k, zero_mul]
      rw [h1, hself, mul_zero, sub_zero]
    · rw [dotQ_comm (gsRow x j) (gsRow x j)] at hself ⊢
      rw [div_mul_cancel₀ _ hself, dotQ_comm, sub_self]

lemma normSq_pos_of_big {n : ℕ} {u : Fin n → ℚ}
    (h : ((1:ℚ)/10^12)^2 ≤ normSq u) : 0 < normSq u :=
  lt_of_lt_of_le (by norm_num) h

/-- When the row norm is at least 1e-12 the F.normalize eps guard is
    inactive: the denominator is the true norm. -/
lemma normRow_eq {n : ℕ} (u : Fin n → ℚ)
    (h : ((1:ℚ)/10^12)^2 ≤ normSq u) :
    ∀ k, normRow u k = (u k : ℝ) / Real.sqrt ((normSq u : ℚ) : ℝ) := by
  intro k
  unfold normRow
  rw [max_eq_left]
  have h2 : ((1:ℚ)/10^12 : ℝ)^2 ≤ ((normSq u : ℚ) : ℝ) := by exact_mod_cast h
  calc (1/10^12 : ℝ) = Real.sqrt (((1:ℚ)/10^12 : ℝ)^2) := by
        rw [Real.sqrt_sq (by norm_num)]; norm_num
    _ ≤ Real.sqrt ((normSq u : ℚ) : ℝ) := Real.sqrt_le_sqrt h2

lemma normRow_inner {n : ℕ} (u v : Fin n → ℚ)
    (hu : ((1:ℚ)/10^12)^2 ≤ normSq u) (hv : ((1:ℚ)/10^12)^2 ≤ normSq v) :
    ∑ k, normRow u k * normRow v k
      = ((dotQ u v : ℚ) : ℝ)
        / (Real.sqrt ((normSq u : ℚ) : ℝ) * Real.sqrt ((normSq v : ℚ) : ℝ)) := by
  have hrw : ∀ k : Fin n, normRow u k * normRow v k
      = (u k : ℝ) * (v k : ℝ)
        / (Real.sqrt ((normSq u : ℚ) : ℝ) * Real.sqrt ((normSq v : ℚ) : ℝ)) := by
    intro k
    rw [normRow_eq u hu k, normRow_eq v hv k, div_mul_div_comm]
  rw [Finset.sum_congr rfl fun k _ => hrw k, ← Finset.sum_div]
  congr 1
  unfold dotQ
  push_cast
  rfl

/-- C4: whenever init_task_repres succeeds (sympy GramSchmidt did not
reject the random matrix) and every Gram-Schmidt row clears the 1e-12
normalization guard, the produced task representations are exactly unit
norm and exactly pairwise orthogonal whenever the number of tasks is at
most the representation dimension. -/
theorem claim4_task_repres_orthonormal {m n : ℕ} (X : Fin m → Fin n → ℚ)
    (vs : Fin m → Fin n → ℝ) (_hdim : m ≤ n)
    (hbig : ∀ i : Fin m, ((1:ℚ)/10^12)^2 ≤ normSq (gsRow (xExt X) i))
    (hok : init_task_repres X = Except.ok vs) :
    (∀ i, ∑ k, vs i k * vs i k = 1) ∧
    (∀ i j, i ≠ j → ∑ k, vs i k * vs j k = 0) := by
  have hne : ∀ i : Fin m, normSq (gsRow (xExt X) i) ≠ 0 :=
    fun i => (normSq_pos_of_big (hbig i)).ne'
  rw [init_task_repres, if_pos hne] at hok
  have hvs : (fun i : Fin m => normRow (gsRow (xExt X) i)) = vs :=
    Except.ok.inj hok
  subst hvs
  constructor
  · intro i
    show ∑ k, normRow (gsRow (xExt X) i) k * normRow (gsRow (xExt X) i) k = 1
    rw [normRow_inner _ _ (hbig i) (hbig i)]
    have hS : (0:ℝ) < ((normSq (gsRow (xExt X) i) : ℚ) : ℝ) := by
      exact_mod_cast normSq_pos_of_big (hbig i)
    rw [Real.mul_self_sqrt hS.le]
    have : ((dotQ (gsRow (xExt X) i) (gsRow (xExt X) i) : ℚ) : ℝ)
        = ((normSq (gsRow (xExt X) i) : ℚ) : ℝ) := rfl
    rw [this, div_self hS.ne']
  · intro i j hij
    show ∑ k, normRow (gsRow (xExt X) i) k * normRow (gsRow (xExt X) j) k = 0
    rw [normRow_inner _ _ (hbig i) (hbig j)]
    have horth : dotQ (gsRow (xExt X) i) (gsRow (xExt X) j) = 0 := by
      rcases hij.lt_or_lt with h | h
      · rw [dotQ_comm]
        exact gsRow_orth (xExt X) j i h
      · exact gsRow_orth (xExt X) i j h
    rw [horth]
    norm_num

/-- Concrete 2x2 input matrix for the C4 witness. -/
def witX : Fin 2 → Fin 2 → ℚ := ![![1, 0], ![0, 1]]

/-- Witness for C4: on the identity-like 2x2 input the produced rows are
exactly orthonormal. -/
theorem claim4_witness :
    ((1:ℚ)/10^12)^2 ≤ normSq (gsRow (xExt witX) (0 : Fin 2)) ∧
    (∑ k, normRow (gsRow (xExt witX) (0 : Fin 2)) k
        * normRow (gsRow (xExt witX) (0 : Fin 2)) k = 1) ∧
    (∑ k, normRow (gsRow (xExt witX) (0 : Fin 2)) k
        * normRow (gsRow (xExt witX) (1 : Fin 2)) k = 0) := by
  have g0 : gsRow (xExt witX) 0 = ![(1:ℚ), 0] := by
    funext k
    simp [gsRow, gsRows, gsStep, xExt, witX]
  have g1 : gsRow (xExt witX) 1 = ![(0:ℚ), 1] := by
    funext k
    simp [gsRow, gsRows, gsStep, xExt, witX, dotQ, Fin.sum_univ_two]
  have hbig : ∀ i : Fin 2, ((1:ℚ)/10^12)^2 ≤ normSq (gsRow (xExt witX) i) := by
    intro i
    match i with
    | ⟨0, _⟩ =>
      show ((1:ℚ)/10^12)^2 ≤ normSq (gsRow (xExt witX) 0)
      rw [g0]
      norm_num [normSq, dotQ, Fin.sum_univ_two]
    | ⟨1, _⟩ =>
      show ((1:ℚ)/10^12)^2 ≤ normSq (gsRow (xExt witX) 1)
      rw [g1]
      norm_num [normSq, dotQ, Fin.sum_univ_two]
  have hne : ∀ i : Fin 2, normSq (gsRow (xExt witX) i) ≠ 0 :=
    fun i => (normSq_pos_of_big (hbig i)).ne'
  have hok : init_task_repres witX
      = Except.ok (fun i : Fin 2 => normRow (gsRow (xExt witX) i)) := by
    rw [init_task_repres, if_pos hne]
  have hmain := claim4_task_repres_orthonormal witX _ (le_refl 2) hbig hok
  exact ⟨hbig 0, hmain.1 0, hmain.2 0 1 (by decide)⟩

/- ===== Controller: task-representation accessor, persistence, and the
   auxiliary encoder/decoder path =====
   xtrans_controller.py lines 121-129, 199-201, 213-225. -/

/-- XTransMAC.get_task_repres (lines 199-201): the assert rejects
    require_grad=True; otherwise the stored vector is replicated across the
    task agent axis (unsqueeze(0).repeat(n_agents, 1)). -/
def get_task_repres {d : ℕ} (task2repre : String → Fin d → ℚ)
    (task2n_agents : String → ℕ) (task : String) (require_grad : Bool) :
    Except String (Fin (task2n_agents task) → Fin d → ℚ) :=
  if require_grad then Except.error "Not train task repre in mt training phase!"
  else Except.ok (fun _ => task2repre task)

/-- C7: requesting a gradient-bearing task representation fails with the
assertion message, while require_grad=False returns the stored vector
replicated across the agent axis. -/
theorem claim7_task_repre_accessor {d : ℕ} (task2repre : String → Fin d → ℚ)
    (task2n_agents : String → ℕ) (task : String) :
    get_task_repres task2repre task2n_agents task true
      = Except.error "Not train task repre in mt training phase!" ∧
    get_task_repres task2repre task2n_agents task false
      = Except.ok (fun _ => task2repre task) :=
  ⟨rfl, rfl⟩

/-- The attribute names assigned on an XTransMAC instance by its
    constructor (lines 15-58).  Python getattr on anything else raises
    AttributeError. -/
def macAttrNames : List String :=
  ["train_tasks", "task2scheme", "task2args", "task2n_agents", "main_args",
   "agent_output_type", "action_selector", "task2decomposer",
   "task2dynamic_decoder", "surrogate_decomposer", "dynamic_encoder",
   "agent", "hidden_states", "task2repre"]

/-- Python attribute lookup on the controller instance. -/
def getattrMAC (name : String) : Except String Unit :=
  if name ∈ macAttrNames then Except.ok ()
  else Except.error ("AttributeError: " ++ name)

/-- XTransMAC.save_models (lines 121-124): writes exactly the agent and the
    dynamic-encoder state dicts (per-task decoders and task representations
    are not written here). -/
def save_models {SD : Type} (agentSD dynamic_encoderSD : SD) :
    List (String × SD) :=
  [("agent.th", agentSD), ("dynamic_encoder.th", dynamic_encoderSD)]

/-- XTransMAC.load_models (lines 126-129): loads the agent weights, then
    accesses the attribute written `self.dynmaic_encoder` in the source —
    a misspelling of dynamic_encoder. -/
def load_models {SD : Type} (bundle : String → SD) : Except String (SD × SD) :=
  match getattrMAC "agent" with
  | Except.error e => Except.error e
  | Except.ok _ =>
    match getattrMAC "dynmaic_encoder" with
    | Except.error e => Except.error e
    | Except.ok _ => Except.ok (bundle "agent.th", bundle "dynamic_encoder.th")

/-- C6 evidence: save_models writes exactly the two shared bundles, but
load_models always raises AttributeError because the source accesses the
misspelled attribute `dynmaic_encoder` (line 129); it never restores the
dynamic-encoder weights. -/
theorem claim6_load_models_attribute_error {SD : Type} (agentSD encSD : SD)
    (bundle : String → SD) :
    (save_models agentSD encSD).map Prod.fst
        = ["agent.th", "dynamic_encoder.th"] ∧
    "dynmaic_encoder" ∉ macAttrNames ∧
    load_models bundle = Except.error "AttributeError: dynmaic_encoder" :=
  ⟨rfl, by decide, rfl⟩

/-- The mutable state of an XTransMAC instance that the methods under
    study read or write: the recurrent hidden state (written by forward,
    line 74) and the task-representation store (written only at init). -/
structure MACState (Hid : Type) (d : ℕ) where
  hidden_states : Hid
  task2repre : String → Fin d → ℚ

/-- XTransMAC.forward, line 74: the agent call returns outputs and the new
    hidden state, which IS stored back into the controller state. -/
def forwardHiddenStep {Hid Ins Outs : Type} {d : ℕ}
    (agent : Ins → Hid → Outs × Hid) (inputs : Ins)
    (st : MACState Hid d) : Outs × MACState Hid d :=
  let r := agent inputs st.hidden_states
  (r.1, { st with hidden_states := r.2 })

/-- XTransMAC.task_encoder_forward (lines 213-225): reads obs/state/actions
    from the batch, fetches the frozen task representation
    (require_grad=False), runs the shared dynamic encoder then the per-task
    dynamic decoder.  No controller attribute is assigned anywhere in the
    body, so the state is returned unchanged. -/
def task_encoder_forward {Hid Obs St Act Latent NObs NSt Rew : Type} {d : ℕ}
    (task2n_agents : String → ℕ)
    (dynamic_encoder : Obs → St → Act → (task : String) →
      (Fin (task2n_agents task) → Fin d → ℚ) → Latent × ℕ)
    (task2dynamic_decoder : String → Latent × ℕ → NObs × NSt × Rew)
    (obs : Obs) (state : St) (actions : Act) (task : String)
    (st : MACState Hid d) :
    Except String ((NObs × NSt × Rew) × MACState Hid d) :=
  match get_task_repres st.task2repre task2n_agents task false with
  | Except.error e => Except.error e
  | Except.ok task_repre =>
    let encoded := dynamic_encoder obs state actions task task_repre
    Except.ok (task2dynamic_decoder task encoded, st)

/-- C9: running the dynamic encoder/decoder path succeeds and returns the
controller state unchanged — in particular the recurrent hidden state used
by action selection is identical before and after the call (contrast with
forwardHiddenStep, which does overwrite it). -/
theorem claim9_task_encoder_forward_preserves_state
    {Hid Obs St Act Latent NObs NSt Rew : Type} {d : ℕ}
    (task2n_agents : String → ℕ)
    (dynamic_encoder : Obs → St → Act → (task : String) →
      (Fin (task2n_agents task) → Fin d → ℚ) → Latent × ℕ)
    (task2dynamic_decoder : String → Latent × ℕ → NObs × NSt × Rew)
    (obs : Obs) (state : St) (actions : Act) (task : String)
    (st : MACState Hid d) :
    ∃ preds, task_encoder_forward task2n_agents dynamic_encoder
        task2dynamic_decoder obs state actions task st
      = Except.ok (preds, st) :=
  ⟨_, rfl⟩

/- ===== Attention mixing network =====
   attn_x.py, QMixer.  One (batch, time) slice: the code reshapes to
   bs*seq_len and every step acts independently on each slice. -/

/-- A torch.nn.Linear layer: weight matrix and bias. -/
structure Linear (inDim outDim : ℕ) where
  weight : Fin outDim → Fin inDim → ℚ
  bias : Fin outDim → ℚ

/-- Affine application of a linear layer. -/
def Linear.apply {i o : ℕ} (L : Linear i o) (v : Fin i → ℚ) : Fin o → ℚ :=
  fun k => (∑ j, L.weight k j * v j) + L.bias k

/-- Modelled from the spec: the external per-environment state decomposer
    interface (spec section 6); its sc2 implementation is outside src.
    decompose_state yields per-ally and per-enemy feature slices plus
    per-ally last-action slices; decompose_action_info compacts per-ally
    action features to n_actions_no_attack + 1 entries. -/
structure SC2Decomposer (state_dim : ℕ) where
  n_agents : ℕ
  n_enemies : ℕ
  state_nf_al : ℕ
  state_nf_en : ℕ
  n_actions : ℕ
  n_actions_no_attack : ℕ
  state_last_action : Bool
  state_timestep_number : Bool
  decompose_state_ally : (Fin state_dim → ℚ) → Fin n_agents → Fin state_nf_al → ℚ
  decompose_state_enemy : (Fin state_dim → ℚ) → Fin n_enemies → Fin state_nf_en → ℚ
  decompose_state_last_action :
    (Fin state_dim → ℚ) → Fin n_agents → Fin n_actions → ℚ
  decompose_action_info :
    (Fin n_agents → Fin n_actions → ℚ) → Fin n_agents
      → Fin (n_actions_no_attack + 1) → ℚ

/-- The QMixer network (attn_x.py __init__): the injected decomposer, the
    dimensions from args, and the trainable layers.  The ally encoder input
    is state_nf_al + n_actions_no_attack + 1 when the state carries last
    actions, state_nf_al otherwise; V1/V2 are the two layers of the
    nn.Sequential V (with a ReLU between). -/
structure QMixer (state_dim : ℕ) where
  dec : SC2Decomposer state_dim
  embed_dim : ℕ
  attn_embed_dim : ℕ
  entity_embed_dim : ℕ
  task_repre_dim : ℕ
  ally_encoder :
    Linear (dec.state_nf_al
      + cond dec.state_last_action (dec.n_actions_no_attack + 1) 0)
      entity_embed_dim
  enemy_encoder : Linear dec.state_nf_en entity_embed_dim
  query : Linear entity_embed_dim attn_embed_dim
  key : Linear entity_embed_dim attn_embed_dim
  hyper_w_1 : Linear (entity_embed_dim + task_repre_dim) embed_dim
  hyper_w_final : Linear (entity_embed_dim + task_repre_dim) embed_dim
  hyper_b_1 : Linear (entity_embed_dim + task_repre_dim) embed_dim
  V1 : Linear (entity_embed_dim + task_repre_dim) embed_dim
  V2 : Linear embed_dim 1

/-- Number of entities (allies then enemies) in the attention set. -/
def QMixer.nE {sd : ℕ} (M : QMixer sd) : ℕ := M.dec.n_agents + M.dec.n_enemies

/-- Per-ally input of the ally encoder: the ally state slice, concatenated
    (lines 66-69) with the compact last-action features when
    state_last_action is set. -/
def QMixer.allyInput {sd : ℕ} (M : QMixer sd) (s : Fin sd → ℚ)
    (a : Fin M.dec.n_agents) :
    Fin (M.dec.state_nf_al
      + cond M.dec.state_last_action (M.dec.n_actions_no_attack + 1) 0) → ℚ :=
  fun k =>
    if h : (k : ℕ) < M.dec.state_nf_al then
      M.dec.decompose_state_ally s a ⟨k, h⟩
    else
      M.dec.decompose_action_info (M.dec.decompose_state_last_action s) a
        ⟨(k : ℕ) - M.dec.state_nf_al, by
          have hk := k.isLt
          have hle : cond M.dec.state_last_action (M.dec.n_actions_no_attack + 1) 0
              ≤ M.dec.n_actions_no_attack + 1 := by
            cases M.dec.state_last_action <;> simp
          omega⟩

/-- Lines 72-76: encode ally and enemy features and concatenate along the
    entity axis. -/
def QMixer.entityEmbed {sd : ℕ} (M : QMixer sd) (s : Fin sd → ℚ) :
    Fin M.nE → Fin M.entity_embed_dim → ℚ :=
  fun i => Fin.addCases
    (fun a => M.ally_encoder.apply (M.allyInput s a))
    (fun e => M.enemy_encoder.apply (M.dec.decompose_state_enemy s e)) i

/-- Line 81: energy[i, j] is the dot product of the query projection of
    entity i with the key projection of entity j. -/
def QMixer.energy {sd : ℕ} (M : QMixer sd) (s : Fin sd → ℚ) :
    Fin M.nE → Fin M.nE → ℚ :=
  fun i j => ∑ d, M.query.apply (M.entityEmbed s i) d
    * M.key.apply (M.entityEmbed s j) d

/-- Line 82: F.softmax(energy, dim=1) — the softmax runs along the FIRST
    entity axis (the query-projected one): for each fixed j the column
    i ↦ score i j is normalized. -/
def QMixer.attnScore {sd : ℕ} (E : ℚ → ℚ) (M : QMixer sd) (s : Fin sd → ℚ) :
    Fin M.nE → Fin M.nE → ℚ :=
  fun i j => softmaxE E (fun i2 => M.energy s i2 j) i

/-- Refinement comparison, following the words of the claim instead of the
    source: softmax over the key entity axis (dim 2 of the energy tensor),
    normalizing j ↦ score i j for each fixed i. -/
def QMixer.attnScoreSpecKeyAxis {sd : ℕ} (E : ℚ → ℚ) (M : QMixer sd)
    (s : Fin sd → ℚ) : Fin M.nE → Fin M.nE → ℚ :=
  fun i j => softmaxE E (fun j2 => M.energy s i j2) j

/-- Lines 83-84: bmm of the unprojected entity embeddings with the score
    matrix, then mean over the last axis — one shared context vector. -/
def QMixer.attnOut {sd : ℕ} (E : ℚ → ℚ) (M : QMixer sd) (s : Fin sd → ℚ) :
    Fin M.entity_embed_dim → ℚ :=
  fun d => (∑ j, ∑ i, M.entityEmbed s i d * M.attnScore E s i j) / (M.nE : ℚ)

/-- Lines 90-93: the shared context is broadcast to every agent slot and
    concatenated with that agent's task representation. -/
def QMixer.mixingInput {sd : ℕ} (E : ℚ → ℚ) (M : QMixer sd) (s : Fin sd → ℚ)
    (mu : Fin M.dec.n_agents → Fin M.task_repre_dim → ℚ)
    (a : Fin M.dec.n_agents) :
    Fin (M.entity_embed_dim + M.task_repre_dim) → ℚ :=
  Fin.append (M.attnOut E s) (mu a)

/-- F.elu with alpha = 1 (exponential abstracted as E). -/
def elu (E : ℚ → ℚ) (x : ℚ) : ℚ := if 0 < x then x else E x - 1

/-- Line 96: first-layer weights, the absolute value of hyper_w_1 output. -/
def QMixer.w1 {sd : ℕ} (E : ℚ → ℚ) (M : QMixer sd) (s : Fin sd → ℚ)
    (mu : Fin M.dec.n_agents → Fin M.task_repre_dim → ℚ)
    (a : Fin M.dec.n_agents) (k : Fin M.embed_dim) : ℚ :=
  |M.hyper_w_1.apply (M.mixingInput E s mu a) k|

/-- Line 97: first-layer bias, hyper_b_1 output averaged over agents. -/
def QMixer.b1 {sd : ℕ} (E : ℚ → ℚ) (M : QMixer sd) (s : Fin sd → ℚ)
    (mu : Fin M.dec.n_agents → Fin M.task_repre_dim → ℚ)
    (k : Fin M.embed_dim) : ℚ :=
  (∑ a, M.hyper_b_1.apply (M.mixingInput E s mu a) k) / (M.dec.n_agents : ℚ)

/-- Line 101: hidden = elu(agent_qs · w1 + b1). -/
def QMixer.hiddenLayer {sd : ℕ} (E : ℚ → ℚ) (M : QMixer sd) (s : Fin sd → ℚ)
    (mu : Fin M.dec.n_agents → Fin M.task_repre_dim → ℚ)
    (qs : Fin M.dec.n_agents → ℚ) (k : Fin M.embed_dim) : ℚ :=
  elu E ((∑ a, qs a * M.w1 E s mu a k) + M.b1 E s mu k)

/-- Line 104: final-layer weights, absolute values averaged over agents. -/
def QMixer.wFinal {sd : ℕ} (E : ℚ → ℚ) (M : QMixer sd) (s : Fin sd → ℚ)
    (mu : Fin M.dec.n_agents → Fin M.task_repre_dim → ℚ)
    (k : Fin M.embed_dim) : ℚ :=
  (∑ a, |M.hyper_w_final.apply (M.mixingInput E s mu a) k|) / (M.dec.n_agents : ℚ)

/-- Line 105: the state-value term V (two-layer net with ReLU), averaged
    over agents. -/
def QMixer.vVal {sd : ℕ} (E : ℚ → ℚ) (M : QMixer sd) (s : Fin sd → ℚ)
    (mu : Fin M.dec.n_agents → Fin M.task_repre_dim → ℚ) : ℚ :=
  (∑ a, M.V2.apply
      (fun k2 => max 0 (M.V1.apply (M.mixingInput E s mu a) k2)) 0)
    / (M.dec.n_agents : ℚ)

/-- Lines 96-111: the mixed scalar value for one (batch, time) slice. -/
def QMixer.mixValue {sd : ℕ} (E : ℚ → ℚ) (M : QMixer sd) (s : Fin sd → ℚ)
    (mu : Fin M.dec.n_agents → Fin M.task_repre_dim → ℚ)
    (qs : Fin M.dec.n_agents → ℚ) : ℚ :=
  (∑ k, M.hiddenLayer E s mu qs k * M.wFinal E s mu k) + M.vVal E s mu

/-- QMixer.forward (lines 54-113): raises Not Implemented when the
    decomposer reports the state-timestep-number mode (lines 87-88),
    otherwise returns the mixed value. -/
def QMixer.forward {sd : ℕ} (E : ℚ → ℚ) (M : QMixer sd)
    (agent_qs : Fin M.dec.n_agents → ℚ) (s : Fin sd → ℚ)
    (mu : Fin M.dec.n_agents → Fin M.task_repre_dim → ℚ) :
    Except String ℚ :=
  if M.dec.state_timestep_number then Except.error "Not Implemented"
  else Except.ok (M.mixValue E s mu agent_qs)

/-- C8: whenever the decomposer reports state_timestep_number, the mixer
forward raises rather than returning any mixed value. -/
theorem claim8_state_timestep_raises {sd : ℕ} (E : ℚ → ℚ) (M : QMixer sd)
    (qs : Fin M.dec.n_agents → ℚ) (s : Fin sd → ℚ)
    (mu : Fin M.dec.n_agents → Fin M.task_repre_dim → ℚ)
    (h : M.dec.state_timestep_number = true) :
    M.forward E qs s mu = Except.error "Not Implemented" := by
  unfold QMixer.forward
  rw [h]
  simp

/-- Constant-filled linear layer, for concrete instantiations. -/
def constLinear (i o : ℕ) (w b : ℚ) : Linear i o :=
  ⟨fun _ _ => w, fun _ => b⟩

/-- A 1-agent decomposer reporting the unimplemented timestep mode. -/
def witDecT : SC2Decomposer 1 :=
  { n_agents := 1, n_enemies := 0, state_nf_al := 1, state_nf_en := 1,
    n_actions := 1, n_actions_no_attack := 0,
    state_last_action := false, state_timestep_number := true,
    decompose_state_ally := fun s _ _ => s 0,
    decompose_state_enemy := fun _ _ _ => 0,
    decompose_state_last_action := fun _ _ _ => 0,
    decompose_action_info := fun f a _ => f a 0 }

/-- Concrete mixer over witDecT. -/
def witMixerT : QMixer 1 :=
  { dec := witDecT, embed_dim := 1, attn_embed_dim := 1, entity_embed_dim := 1,
    task_repre_dim := 1,
    ally_encoder := constLinear _ _ 1 0, enemy_encoder := constLinear _ _ 1 0,
    query := constLinear _ _ 1 0, key := constLinear _ _ 1 0,
    hyper_w_1 := constLinear _ _ 1 0, hyper_w_final := constLinear _ _ 1 0,
    hyper_b_1 := constLinear _ _ 1 0, V1 := constLinear _ _ 1 0,
    V2 := constLinear _ _ 1 0 }

/-- Witness for C8 on a concrete mixer whose decomposer sets the flag. -/
theorem claim8_witness :
    witDecT.state_timestep_number = true ∧
    witMixerT.forward (fun _ => (1:ℚ)) (fun _ => 1) (fun _ => 0) (fun _ _ => 0)
      = Except.error "Not Implemented" :=
  ⟨rfl, claim8_state_timestep_raises (fun _ => (1:ℚ)) witMixerT
    (fun _ => 1) (fun _ => 0) (fun _ _ => 0) rfl⟩

lemma eluMonotone (E : ℚ → ℚ) (hmono : Monotone E) (hE0 : E 0 ≤ 1) :
    Monotone (elu E) := by
  intro x y hxy
  unfold elu
  by_cases hx : 0 < x
  · rw [if_pos hx, if_pos (lt_of_lt_of_le hx hxy)]
    exact hxy
  · rw [if_neg hx]
    by_cases hy : 0 < y
    · rw [if_pos hy]
      have h1 : E x ≤ E 0 := hmono (le_of_not_lt hx)
      linarith
    · rw [if_neg hy]
      have := hmono hxy
      linarith

lemma mixValue_mono {sd : ℕ} (E : ℚ → ℚ) (M : QMixer sd) (s : Fin sd → ℚ)
    (mu : Fin M.dec.n_agents → Fin M.task_repre_dim → ℚ)
    (qs qs2 : Fin M.dec.n_agents → ℚ)
    (hmono : Monotone E) (hE0 : E 0 ≤ 1) (h : ∀ b, qs b ≤ qs2 b) :
    M.mixValue E s mu qs ≤ M.mixValue E s mu qs2 := by
  unfold QMixer.mixValue
  have hwF : ∀ k, 0 ≤ M.wFinal E s mu k := by
    intro k
    unfold QMixer.wFinal
    exact div_nonneg (Finset.sum_nonneg fun b _ => abs_nonneg _)
      (Nat.cast_nonneg _)
  have hhid : ∀ k, M.hiddenLayer E s mu qs k ≤ M.hiddenLayer E s mu qs2 k := by
    intro k
    unfold QMixer.hiddenLayer
    apply eluMonotone E hmono hE0
    have hsum : ∑ b, qs b * M.w1 E s mu b k ≤ ∑ b, qs2 b * M.w1 E s mu b k := by
      refine Finset.sum_le_sum fun b _ => ?_
      refine mul_le_mul_of_nonneg_right (h b) ?_
      unfold QMixer.w1
      exact abs_nonneg _
    linarith
  have hs := Finset.sum_le_sum fun k (_ : k ∈ Finset.univ) =>
    mul_le_mul_of_nonneg_right (hhid k) (hwF k)
  linarith

/-- C3: for a fixed state, task representation, and weights, raising one
per-agent value (all others held) never decreases the mixer output, for
any monotone exponential with E 0 <= 1 (true of the real exponential). -/
theorem claim3_mixer_monotone {sd : ℕ} (E : ℚ → ℚ) (M : QMixer sd)
    (s : Fin sd → ℚ)
    (mu : Fin M.dec.n_agents → Fin M.task_repre_dim → ℚ)
    (qs : Fin M.dec.n_agents → ℚ) (a : Fin M.dec.n_agents) (q q' : ℚ)
    (v v' : ℚ)
    (hmono : Monotone E) (hE0 : E 0 ≤ 1) (hq : q ≤ q')
    (hv : M.forward E (Function.update qs a q) s mu = Except.ok v)
    (hv' : M.forward E (Function.update qs a q') s mu = Except.ok v') :
    v ≤ v' := by
  unfold QMixer.forward at hv hv'
  cases hflag : M.dec.state_timestep_number with
  | true =>
    rw [hflag] at hv
    simp at hv
  | false =>
    rw [hflag] at hv hv'
    simp at hv hv'
    rw [← hv, ← hv']
    refine mixValue_mono E M s mu _ _ hmono hE0 fun b => ?_
    rw [Function.update_apply, Function.update_apply]
    by_cases hb : b = a
    · rw [if_pos hb, if_pos hb]
      exact hq
    · rw [if_neg hb, if_neg hb]

/-- A 1-agent decomposer with the timestep flag off. -/
def witDecF : SC2Decomposer 1 :=
  { n_agents := 1, n_enemies := 0, state_nf_al := 1, state_nf_en := 1,
    n_actions := 1, n_actions_no_attack := 0,
    state_last_action := false, state_timestep_number := false,
    decompose_state_ally := fun s _ _ => s 0,
    decompose_state_enemy := fun _ _ _ => 0,
    decompose_state_last_action := fun _ _ _ => 0,
    decompose_action_info := fun f a _ => f a 0 }

/-- Concrete mixer over witDecF. -/
def witMixerF : QMixer 1 :=
  { dec := witDecF, embed_dim := 1, attn_embed_dim := 1, entity_embed_dim := 1,
    task_repre_dim := 1,
    ally_encoder := constLinear _ _ 1 0, enemy_encoder := constLinear _ _ 1 0,
    query := constLinear _ _ 1 0, key := constLinear _ _ 1 0,
    hyper_w_1 := constLinear _ _ 1 0, hyper_w_final := constLinear _ _ 1 0,
    hyper_b_1 := constLinear _ _ 1 0, V1 := constLinear _ _ 1 0,
    V2 := constLinear _ _ 1 0 }

/-- Witness for C3 at a concrete mixer and inputs. -/
theorem claim3_witness :
    (0:ℚ) ≤ 1 ∧
    witMixerF.mixValue (fun _ => (1:ℚ)) (fun _ => 0) (fun _ _ => 0)
        (Function.update (fun _ => (0:ℚ)) ⟨0, by decide⟩ 0)
      ≤ witMixerF.mixValue (fun _ => (1:ℚ)) (fun _ => 0) (fun _ _ => 0)
        (Function.update (fun _ => (0:ℚ)) ⟨0, by decide⟩ 1) :=
  ⟨by norm_num,
    claim3_mixer_monotone (fun _ => (1:ℚ)) witMixerF (fun _ => 0)
      (fun _ _ => 0) (fun _ => 0) ⟨0, by decide⟩ 0 1 _ _ monotone_const
      (by norm_num) (by norm_num) rfl rfl⟩

/-- C10: when every agent slot carries the same task representation, the
mixer output depends on the per-agent values only through their sum, and
is therefore invariant under every permutation of the per-agent values. -/
theorem claim10_shared_repre_permutation_invariance {sd : ℕ} (E : ℚ → ℚ)
    (M : QMixer sd) (s : Fin sd → ℚ)
    (mu : Fin M.dec.n_agents → Fin M.task_repre_dim → ℚ)
    (hEq : ∀ a b, mu a = mu b) :
    (∀ qs qs2 : Fin M.dec.n_agents → ℚ,
        ∑ a, qs a = ∑ a, qs2 a → M.forward E qs s mu = M.forward E qs2 s mu) ∧
    (∀ (qs : Fin M.dec.n_agents → ℚ) (σ : Equiv.Perm (Fin M.dec.n_agents)),
        M.forward E (qs ∘ σ) s mu = M.forward E qs s mu) := by
  have hmi : ∀ a b, M.mixingInput E s mu a = M.mixingInput E s mu b := by
    intro a b
    unfold QMixer.mixingInput
    rw [hEq a b]
  have hsum_eq : ∀ (qs qs2 : Fin M.dec.n_agents → ℚ) (k : Fin M.embed_dim),
      ∑ a, qs a = ∑ a, qs2 a →
      ∑ a, qs a * M.w1 E s mu a k = ∑ a, qs2 a * M.w1 E s mu a k := by
    intro qs qs2 k hs
    rcases Nat.eq_zero_or_pos M.dec.n_agents with hz | hp
    · haveI : IsEmpty (Fin M.dec.n_agents) := by rw [hz]; infer_instance
      simp
    · have hw : ∀ a, M.w1 E s mu a k = M.w1 E s mu ⟨0, hp⟩ k := by
        intro a
        unfold QMixer.w1
        rw [hmi a ⟨0, hp⟩]
      calc ∑ a, qs a * M.w1 E s mu a k
          = ∑ a, qs a * M.w1 E s mu ⟨0, hp⟩ k :=
            Finset.sum_congr rfl fun a _ => by rw [hw a]
        _ = (∑ a, qs a) * M.w1 E s mu ⟨0, hp⟩ k := (Finset.sum_mul _ _ _).symm
        _ = (∑ a, qs2 a) * M.w1 E s mu ⟨0, hp⟩ k := by rw [hs]
        _ = ∑ a, qs2 a * M.w1 E s mu ⟨0, hp⟩ k := Finset.sum_mul _ _ _
        _ = ∑ a, qs2 a * M.w1 E s mu a k :=
            Finset.sum_congr rfl fun a _ => by rw [hw a]
  have hfwd : ∀ qs qs2 : Fin M.dec.n_agents → ℚ,
      ∑ a, qs a = ∑ a, qs2 a → M.forward E qs s mu = M.forward E qs2 s mu := by
    intro qs qs2 hs
    have hmix : M.mixValue E s mu qs = M.mixValue E s mu qs2 := by
      unfold QMixer.mixValue QMixer.hiddenLayer
      congr 1
      refine Finset.sum_congr rfl fun k _ => ?_
      rw [hsum_eq qs qs2 k hs]
    unfold QMixer.forward
    rw [hmix]
  refine ⟨hfwd, fun qs σ => hfwd _ _ ?_⟩
  simpa using Equiv.sum_comp σ qs

/-- A 2-agent decomposer with the timestep flag off. -/
def witDec2 : SC2Decomposer 1 :=
  { n_agents := 2, n_enemies := 0, state_nf_al := 1, state_nf_en := 1,
    n_actions := 1, n_actions_no_attack := 0,
    state_last_action := false, state_timestep_number := false,
    decompose_state_ally := fun s _ _ => s 0,
    decompose_state_enemy := fun _ _ _ => 0,
    decompose_state_last_action := fun _ _ _ => 0,
    decompose_action_info := fun f a _ => f a 0 }

/-- Concrete 2-agent mixer over witDec2. -/
def witMixer2 : QMixer 1 :=
  { dec := witDec2, embed_dim := 1, attn_embed_dim := 1, entity_embed_dim := 1,
    task_repre_dim := 1,
    ally_encoder := constLinear _ _ 1 0, enemy_encoder := constLinear _ _ 1 0,
    query := constLinear _ _ 1 0, key := constLinear _ _ 1 0,
    hyper_w_1 := constLinear _ _ 1 0, hyper_w_final := constLinear _ _ 1 0,
    hyper_b_1 := constLinear _ _ 1 0, V1 := constLinear _ _ 1 0,
    V2 := constLinear _ _ 1 0 }

/-- Witness for C10: swapping the two agent values leaves the concrete
2-agent mixer output unchanged. -/
theorem claim10_witness :
    witMixer2.forward (fun _ => (1:ℚ)) ![1, 2] (fun _ => 0) (fun _ _ => 0)
      = witMixer2.forward (fun _ => (1:ℚ)) ![2, 1] (fun _ => 0) (fun _ _ => 0) :=
  (claim10_shared_repre_permutation_invariance (fun _ => (1:ℚ)) witMixer2
      (fun _ => 0) (fun _ _ => 0) (fun _ _ => rfl)).1
    ![1, 2] ![2, 1]
    (by
      show (∑ a : Fin 2, ![(1:ℚ), 2] a) = ∑ a : Fin 2, ![(2:ℚ), 1] a
      simp [Fin.sum_univ_two]
      norm_num)

/-- C5, amended.  The attention step computes unscaled query-key dot
products for all entity pairs; F.softmax(energy, dim=1) normalizes over
the QUERY-projection entity axis (each fixed j gives weights over i
summing to 1); the unprojected entity embeddings are combined with those
weights and averaged over the entity axis, yielding one shared context
vector per (batch, time) slice that is a convex combination (overall
weights summing to 1) of the entity embeddings. -/
theorem claim5_amended_attention_convex {sd : ℕ} (E : ℚ → ℚ) (M : QMixer sd)
    (s : Fin sd → ℚ) (hE : ∀ x, 0 < E x) (hnE : 0 < M.nE) :
    (∀ j, ∑ i, M.attnScore E s i j = 1) ∧
    (∀ d, M.attnOut E s d
        = ∑ i, M.entityEmbed s i d
            * ((∑ j, M.attnScore E s i j) / (M.nE : ℚ))) ∧
    (∑ i, (∑ j, M.attnScore E s i j) / (M.nE : ℚ) = 1) := by
  have hcol : ∀ j, ∑ i, M.attnScore E s i j = 1 := fun j =>
    softmaxE_sum_one E hE hnE (fun i2 => M.energy s i2 j)
  refine ⟨hcol, ?_, ?_⟩
  · intro d
    unfold QMixer.attnOut
    rw [Finset.sum_comm, Finset.sum_div]
    refine Finset.sum_congr rfl fun i _ => ?_
    rw [← Finset.mul_sum, mul_div_assoc]
  · rw [← Finset.sum_div]
    have htot : ∑ i, ∑ j, M.attnScore E s i j = (M.nE : ℚ) := by
      rw [Finset.sum_comm, Finset.sum_congr rfl fun j _ => hcol j]
      simp
    rw [htot]
    exact div_self (by exact_mod_cast hnE.ne')

/-- Witness for the amended C5 on the concrete 2-agent mixer. -/
theorem claim5_amended_witness :
    0 < witMixer2.nE ∧
    ∑ i, (∑ j, witMixer2.attnScore (fun _ => (1:ℚ)) (fun _ => 0) i j)
        / (witMixer2.nE : ℚ) = 1 :=
  ⟨by decide,
    (claim5_amended_attention_convex (fun _ => (1:ℚ)) witMixer2 (fun _ => 0)
      (fun _ => one_pos) (by decide)).2.2⟩

/-- A decomposer with one ally and one enemy (timestep flag off). -/
def witDecA : SC2Decomposer 1 :=
  { n_agents := 1, n_enemies := 1, state_nf_al := 1, state_nf_en := 1,
    n_actions := 1, n_actions_no_attack := 0,
    state_last_action := false, state_timestep_number := false,
    decompose_state_ally := fun s _ _ => s 0,
    decompose_state_enemy := fun s _ _ => s 0,
    decompose_state_last_action := fun _ _ _ => 0,
    decompose_action_info := fun f a _ => f a 0 }

/-- A concrete mixer with asymmetric attention weights: ally embeds to 1,
    enemy to 2, query is the identity projection, key adds 1. -/
def witMixerA : QMixer 1 :=
  { dec := witDecA, embed_dim := 1, attn_embed_dim := 1, entity_embed_dim := 1,
    task_repre_dim := 1,
    ally_encoder := constLinear _ _ 1 0, enemy_encoder := constLinear _ _ 2 0,
    query := constLinear _ _ 1 0, key := constLinear _ _ 1 1,
    hyper_w_1 := constLinear _ _ 1 0, hyper_w_final := constLinear _ _ 1 0,
    hyper_b_1 := constLinear _ _ 1 0, V1 := constLinear _ _ 1 0,
    V2 := constLinear _ _ 1 0 }


/-- Counterexample to C5 as stated: on a concrete entity set the code's
attention weights (F.softmax over dim 1, the query-projection axis) differ
from a softmax taken over the key entity axis, which the claim asserts.
With the witMixerA weights the energy matrix is [[2,3],[4,6]] (plain,
unscaled dot products); the code gives entry (0,0) the weight
E(2)/(E(2)+E(4)) = 3/8 under modelExp, while a key-axis softmax gives
E(2)/(E(2)+E(3)) = 3/7. -/
theorem claim5_counterexample_softmax_axis :
    witMixerA.attnScore modelExp (fun _ => 1) (0 : Fin 2) (0 : Fin 2)
      = 3 / 8 ∧
    witMixerA.attnScoreSpecKeyAxis modelExp (fun _ => 1) (0 : Fin 2)
      (0 : Fin 2) = 3 / 7 ∧
    (3 / 8 : ℚ) ≠ 3 / 7 := by
  have hemb0 : ∀ d, witMixerA.entityEmbed (fun _ => (1:ℚ)) (0 : Fin 2) d = 1 := by
    intro d
    show witMixerA.ally_encoder.apply
      (witMixerA.allyInput (fun _ => (1:ℚ)) ⟨0, by decide⟩) d = 1
    simp [Linear.apply, witMixerA, witDecA, constLinear, QMixer.allyInput]
  have hemb1 : ∀ d, witMixerA.entityEmbed (fun _ => (1:ℚ)) (1 : Fin 2) d = 2 := by
    intro d
    show witMixerA.enemy_encoder.apply
      (witMixerA.dec.decompose_state_enemy (fun _ => (1:ℚ)) ⟨0, by decide⟩) d = 2
    simp [Linear.apply, witMixerA, witDecA, constLinear]
  have he : ∀ i j : Fin 2,
      witMixerA.energy (fun _ => (1:ℚ)) i j
        = witMixerA.entityEmbed (fun _ => (1:ℚ)) i (0 : Fin 1)
          * (witMixerA.entityEmbed (fun _ => (1:ℚ)) j (0 : Fin 1) + 1) := by
    intro i j
    show (∑ d : Fin 1,
        witMixerA.query.apply (witMixerA.entityEmbed (fun _ => (1:ℚ)) i) d
          * witMixerA.key.apply (witMixerA.entityEmbed (fun _ => (1:ℚ)) j) d) = _
    rw [Fin.sum_univ_one]
    show ((∑ d2 : Fin 1, 1 * witMixerA.entityEmbed (fun _ => (1:ℚ)) i d2) + 0)
        * ((∑ d2 : Fin 1, 1 * witMixerA.entityEmbed (fun _ => (1:ℚ)) j d2) + 1) = _
    rw [Fin.sum_univ_one, Fin.sum_univ_one]
    ring
  refine ⟨?_, ?_, by norm_num⟩
  · show softmaxE modelExp
      (fun i2 : Fin 2 => witMixerA.energy (fun _ => (1:ℚ)) i2 (0 : Fin 2))
      (0 : Fin 2) = 3 / 8
    unfold softmaxE
    rw [Fin.sum_univ_two]
    simp only [he, hemb0, hemb1]
    norm_num [modelExp]
  · show softmaxE modelExp
      (fun j2 : Fin 2 => witMixerA.energy (fun _ => (1:ℚ)) (0 : Fin 2) j2)
      (0 : Fin 2) = 3 / 7
    unfold softmaxE
    rw [Fin.sum_univ_two]
    simp only [he, hemb0, hemb1]
    norm_num [modelExp]
